import Mathlib

/-!
Verification of the rom object-to-Redis mapper's write and retrieval path
(`rom/model.py`).  The development embeds, as executable Lean definitions:

* the store-side atomic writer script `_redis_writer_lua` as a state
  transition on a structural Redis store (one namespace),
* the pure delta computation performed by `Model._apply_changes`,
* the optimistic-lock fallback protocol of `Model._apply_changes`
  (`USE_LUA = False`),
* `Model.get`, `Model.save` and `Model.__init__`.

Python dicts are modelled as association lists (`aget`/`aset`/`adel`);
Lua `pairs` iteration order is unspecified in the source, so list order of
dict-like arguments carries no meaning beyond determinism of the model.
Column values are modelled as strings, with each column's `_to_redis` /
`_from_redis` coders carried as function fields.
-/

namespace Rom

/-! ### Association-list primitives (Python dict / Redis hash model) -/

def aget {α β : Type} [DecidableEq α] : List (α × β) → α → Option β
  | [], _ => none
  | p :: r, k => if p.1 = k then some p.2 else aget r k

def adel {α β : Type} [DecidableEq α] : List (α × β) → α → List (α × β)
  | [], _ => []
  | p :: r, k => if p.1 = k then adel r k else p :: adel r k

def aset {α β : Type} [DecidableEq α] (m : List (α × β)) (k : α) (v : β) : List (α × β) :=
  (k, v) :: adel m k

theorem aget_aset_self {α β : Type} [DecidableEq α] (m : List (α × β)) (k : α) (v : β) :
    aget (aset m k v) k = some v := by
  simp [aset, aget]

theorem aget_adel_ne {α β : Type} [DecidableEq α] (m : List (α × β)) (k k' : α) (h : k' ≠ k) :
    aget (adel m k) k' = aget m k' := by
  induction m with
  | nil => rfl
  | cons p r ih =>
    by_cases hp : p.1 = k
    · have hkk' : k ≠ k' := fun e => h e.symm
      simp [adel, aget, hp, hkk', ih]
    · by_cases hk' : p.1 = k'
      · simp [adel, aget, hp, hk', h]
      · simp [adel, aget, hp, hk', ih]

theorem aget_adel_self {α β : Type} [DecidableEq α] (m : List (α × β)) (k : α) :
    aget (adel m k) k = none := by
  induction m with
  | nil => rfl
  | cons p r ih =>
    by_cases hp : p.1 = k
    · simp [adel, aget, hp, ih]
    · simp [adel, aget, hp, ih]

theorem aget_aset_ne {α β : Type} [DecidableEq α] (m : List (α × β)) (k k' : α) (v : β)
    (h : k' ≠ k) : aget (aset m k v) k' = aget m k' := by
  simp [aset, aget, Ne.symm h, aget_adel_ne m k k' h]

/-! ### The Redis store touched by the writer script

The script only ever addresses keys of one namespace, so the store is
modelled structurally: unique-index hashes keyed by (column, encoded value),
entity rows keyed by id, set indexes keyed by the combined `attr:token`
string, scored indexes likewise, and prefix/suffix sorted sets keyed by
attribute with members `(token, id)`.  The per-entity index manifest
(`namespace .. '::'`) maps id to the recorded 4-tuple; legacy 2-tuple
manifests are representable as the script decodes both shapes. -/

inductive StoredIdx : Type
  | m4 : List String → List String → List (String × String) → List (String × String) → StoredIdx
  | m2 : List String → List String → StoredIdx
  deriving DecidableEq

abbrev UidxMap := List ((String × String) × String)

structure Store : Type where
  uidx : UidxMap
  rows : List (String × List (String × String))
  sidx : List (String × List String)
  zidx : List (String × List (String × Int))
  preIdx : List (String × List ((String × String) × Int))
  sufIdx : List (String × List ((String × String) × Int))
  manifest : List (String × StoredIdx)
  deriving DecidableEq

/-! ### Phases of the writer script, in source order -/

/-- First pass of the unique-constraint loop (`write == false`): return the
first (column, value) pair whose recorded owner is neither absent nor the
entity's own id.  The Lua source returns just the column name. -/
def uniqueCheckFirst (u : UidxMap) (eid : String) : List (String × String) → Option (String × String)
  | [] => none
  | cv :: rest =>
    match aget u cv with
    | some j => if j = eid then uniqueCheckFirst u eid rest else some cv
    | none => uniqueCheckFirst u eid rest

/-- Second pass of the unique-constraint loop (`write == true`): HSET every
new unique value to the entity's id. -/
def uniqueWriteRun (eid : String) (u : List (String × String)) (ws : Store × Nat) : Store × Nat :=
  ({ ws.1 with uidx := u.foldl (fun m cv => aset m cv eid) ws.1.uidx }, ws.2 + u.length)

/-- Removal of superseded unique entries: HDEL only when the current owner
read back from the store equals the entity's own id. -/
def udeleteRun (eid : String) (ud : List (String × String)) (ws : Store × Nat) : Store × Nat :=
  let r := ud.foldl (fun (p : UidxMap × Nat) cv =>
      if aget p.1 cv = some eid then (adel p.1 cv, p.2 + 1) else p) (ws.1.uidx, ws.2)
  ({ ws.1 with uidx := r.1 }, r.2)

/-- HDEL of removed fields from the entity row (one command when nonempty;
a Redis hash that becomes empty disappears). -/
def deletedRun (eid : String) (ds : List String) (ws : Store × Nat) : Store × Nat :=
  if ds.isEmpty then ws else
  let rows' := match aget ws.1.rows eid with
    | none => ws.1.rows
    | some h =>
      let h' := h.filter (fun p => !(ds.contains p.1))
      if h'.isEmpty then adel ws.1.rows eid else aset ws.1.rows eid h'
  ({ ws.1 with rows := rows' }, ws.2 + 1)

/-- HMSET of changed/added fields into the entity row. -/
def dataRun (eid : String) (ds : List (String × String)) (ws : Store × Nat) : Store × Nat :=
  if ds.isEmpty then ws else
  let h := (aget ws.1.rows eid).getD []
  ({ ws.1 with rows := aset ws.1.rows eid (ds.foldl (fun h p => aset h p.1 p.2) h) }, ws.2 + 1)

/-- SREM of an id from a plain set index key. -/
def sremOp (m : List (String × List String)) (k eid : String) : List (String × List String) :=
  match aget m k with
  | none => m
  | some mem =>
    let mem' := mem.filter (fun x => x != eid)
    if mem'.isEmpty then adel m k else aset m k mem'

/-- ZREM of one member from a sorted-set key. -/
def zremG {α : Type} [DecidableEq α] (m : List (String × List (α × Int))) (k : String)
    (mem : α) : List (String × List (α × Int)) :=
  match aget m k with
  | none => m
  | some ms =>
    let ms' := adel ms mem
    if ms'.isEmpty then adel m k else aset m k ms'

/-- ZADD of one member with a score to a sorted-set key. -/
def zaddG {α : Type} [DecidableEq α] (m : List (String × List (α × Int))) (k : String)
    (mem : α) (sc : Int) : List (String × List (α × Int)) :=
  aset m k (aset ((aget m k).getD []) mem sc)

/-- SADD of an id to a plain set index key. -/
def saddOp (m : List (String × List String)) (k eid : String) : List (String × List String) :=
  let mem := (aget m k).getD []
  aset m k (if mem.contains eid then mem else mem ++ [eid])

/-- Manifest-driven removal of the previous save's index entries: read the
stored manifest for this id (legacy 2-tuples get empty prefix/suffix lists)
and SREM/ZREM every listed entry. -/
def StoredIdx.parts : StoredIdx →
    List String × List String × List (String × String) × List (String × String)
  | .m4 a b c d => (a, b, c, d)
  | .m2 a b => (a, b, [], [])

def manifestCleanupRun (eid : String) (ws : Store × Nat) : Store × Nat :=
  match aget ws.1.manifest eid with
  | none => ws
  | some mi =>
    match mi.parts with
    | (ks, ss, ps, fs) =>
      let st := ws.1
      let sidx' := ks.foldl (fun m k => sremOp m k eid) st.sidx
      let zidx' := ss.foldl (fun m k => zremG m k eid) st.zidx
      let pre' := ps.foldl (fun m (p : String × String) => zremG m p.1 (p.2, eid)) st.preIdx
      let suf' := fs.foldl (fun m (p : String × String) => zremG m p.1 (p.2, eid)) st.sufIdx
      let st := { st with sidx := sidx', zidx := zidx', preIdx := pre', sufIdx := suf' }
      (st, ws.2 + ks.length + ss.length + ps.length + fs.length)

/-- Delete-mode block: DEL the entity row and HDEL its manifest entry. -/
def deleteEntityRun (eid : String) (isDel : Bool) (ws : Store × Nat) : Store × Nat :=
  if isDel then
    ({ ws.1 with rows := adel ws.1.rows eid, manifest := adel ws.1.manifest eid }, ws.2 + 2)
  else ws

/-- SADD of every new set-index key. -/
def saddRun (eid : String) (ks : List String) (ws : Store × Nat) : Store × Nat :=
  ({ ws.1 with sidx := ks.foldl (fun m k => saddOp m k eid) ws.1.sidx }, ws.2 + ks.length)

/-- ZADD of every new scored-index entry. -/
def zaddRun (eid : String) (ss : List (String × Int)) (ws : Store × Nat) : Store × Nat :=
  ({ ws.1 with zidx := ss.foldl (fun m p => zaddG m p.1 eid p.2) ws.1.zidx }, ws.2 + ss.length)

/-- ZADD of every new prefix entry (member token-with-id, given score). -/
def preAddRun (eid : String) (ps : List (String × String × Int)) (ws : Store × Nat) : Store × Nat :=
  ({ ws.1 with preIdx := ps.foldl (fun m t => zaddG m t.1 (t.2.1, eid) t.2.2) ws.1.preIdx },
   ws.2 + ps.length)

/-- ZADD of every new suffix entry. -/
def sufAddRun (eid : String) (ps : List (String × String × Int)) (ws : Store × Nat) : Store × Nat :=
  ({ ws.1 with sufIdx := ps.foldl (fun m t => zaddG m t.1 (t.2.1, eid) t.2.2) ws.1.sufIdx },
   ws.2 + ps.length)

/-- Non-delete epilogue: HSET the manifest for this id to exactly the
4-tuple of entries just written. -/
def manifestWriteRun (eid : String) (isDel : Bool) (ks : List String) (ss : List (String × Int))
    (ps fs : List (String × String × Int)) (ws : Store × Nat) : Store × Nat :=
  if isDel then ws else
  let mi := StoredIdx.m4 ks (ss.map Prod.fst) (ps.map fun t => (t.1, t.2.1))
    (fs.map fun t => (t.1, t.2.1))
  ({ ws.1 with manifest := aset ws.1.manifest eid mi }, ws.2 + 1)

/-- The mutating tail of the script, executed only once the unique check of
the first pass has found no conflict. -/
def luaWriterApply (st : Store) (eid : String) (uniqueA udeleteA : List (String × String))
    (deletedA : List String) (dataA : List (String × String)) (keysA : List String)
    (scoredA : List (String × Int)) (preA sufA : List (String × String × Int))
    (isDel : Bool) : Store × Nat :=
  let ws := uniqueWriteRun eid uniqueA (st, 0)
  let ws := udeleteRun eid udeleteA ws
  let ws := deletedRun eid deletedA ws
  let ws := dataRun eid dataA ws
  let ws := manifestCleanupRun eid ws
  let ws := deleteEntityRun eid isDel ws
  let ws := saddRun eid keysA ws
  let ws := zaddRun eid scoredA ws
  let ws := preAddRun eid preA ws
  let ws := sufAddRun eid sufA ws
  manifestWriteRun eid isDel keysA scoredA preA sufA ws

/-- The writer script `_redis_writer_lua`, phase by phase in source order.
Returns the resulting store, the number of mutating Redis commands issued,
and `some conflictingColumn` when the unique check aborted the script (in
which case no command has run).  The namespace argument is positional
fidelity only: keys are structural in the model. -/
def luaWriterScript (st : Store) (_ns eid : String) (uniqueA udeleteA : List (String × String))
    (deletedA : List String) (dataA : List (String × String)) (keysA : List String)
    (scoredA : List (String × Int)) (preA sufA : List (String × String × Int))
    (isDel : Bool) : Store × Nat × Option String :=
  match uniqueCheckFirst st.uidx eid uniqueA with
  | some cv => (st, 0, some cv.1)
  | none =>
    let r := luaWriterApply st eid uniqueA udeleteA deletedA dataA keysA scoredA preA sufA isDel
    (r.1, r.2, none)

/-- Modelled from the spec: `_prefix_score` (in `rom/util.py`, outside the
provided sources) encodes a token into a numeric score that is monotonic in
string order.  The claims under verification do not depend on its exact
value, so a fixed-width base-256 fold of the leading characters stands in. -/
def prefixScore (s : String) : Int :=
  (s.data.take 6).foldl (fun a c => a * 256 + Int.ofNat c.toNat) 0

/-- The client-side wrapper `redis_writer_lua`: attaches prefix scores to the
prefix/suffix entries, invokes the script, and translates a returned column
name into a `UniqueKeyViolation` identifying the column and the conflicting
value `unique[result]`. -/
def redis_writer_lua (st : Store) (ns eid : String) (uniqueA udeleteA : List (String × String))
    (deletedA : List String) (dataA : List (String × String)) (keysA : List String)
    (scoredA : List (String × Int)) (preA sufA : List (String × String)) (isDel : Bool) :
    Store × Nat × Option (String × String) :=
  let pre2 := preA.map fun p => (p.1, p.2, prefixScore p.2)
  let suf2 := sufA.map fun p => (p.1, p.2, prefixScore p.2)
  match luaWriterScript st ns eid uniqueA udeleteA deletedA dataA keysA scoredA pre2 suf2 isDel with
  | (st', w, some col) => (st', w, some (col, (aget uniqueA col).getD ""))
  | (st', w, none) => (st', w, none)

/-! ### Schema metadata and the pure delta computation of `_apply_changes`

Column values are strings; each column carries its coders, index flags and
key-generation function.  The schema mirrors the metadata the metaclass
builds: the iteration-ordered column table `_columns`, primary key `_pkey`,
the unique column set `_unique` and the composite groups `_cunique`. -/

inductive KeygenOut : Type
  | toks : List String → KeygenOut
  | scor : List (String × Int) → KeygenOut
  | nothing : KeygenOut

structure Column : Type where
  indexFlag : Bool := false
  prefixFlag : Bool := false
  suffixFlag : Bool := false
  toRedis : String → String := fun s => s
  fromRedis : String → String := fun s => s
  keygen : Option (String → KeygenOut) := none
  kgStandard : Bool := false
  kgEx : String → String := fun s => s

structure Schema : Type where
  nspace : String
  columns : List (String × Column)
  pkey : String
  uniq : List String
  cuniq : List (List String)

/-- Lookup of `cls._columns[attr]`; schema validation guarantees presence, so
a neutral column stands in for the impossible miss. -/
def Schema.colOf (sc : Schema) (attr : String) : Column :=
  (aget sc.columns attr).getD {}

structure Delta : Type where
  changes : Nat := 0
  keys : List String := []
  scores : List (String × Int) := []
  dataW : List (String × String) := []
  uniqueW : List (String × String) := []
  deletedW : List String := []
  udeleted : List (String × String) := []
  preE : List (String × String) := []
  sufE : List (String × String) := []
  redisData : List (String × String) := []

def strRev (s : String) : String := String.mk s.data.reverse

/-- Set-style insertion into the `keys` accumulator (`keys` is a Python set). -/
def addKeyOnce (l : List String) (k : String) : List String :=
  if l.contains k then l else l ++ [k]

/-- Index-entry generation for one column (lines 331 to 376 of the source):
run the column's keygen on the new value and extend the set, scored, prefix
and suffix accumulators.  For a token→score mapping the prefix/suffix
entries are only produced by the standard keygens (`SIMPLE` and
`CASE_INSENSITIVE`, the `kgStandard` flag), transformed by `kgEx`. -/
def keygenStep (attr : String) (ca : Column) (delete : Bool) (nval : Option String)
    (d : Delta) : Delta :=
  match ca.keygen, delete, nval with
  | some kg, false, some v =>
    if ca.indexFlag || ca.prefixFlag || ca.suffixFlag then
      match kg v with
      | .toks ks =>
        let d := if ca.indexFlag then
            { d with keys := ks.foldl (fun l k => addKeyOnce l (attr ++ ":" ++ k)) d.keys }
          else d
        let d := if ca.prefixFlag then
            { d with preE := d.preE ++ ks.map (fun k => (attr, k)) } else d
        if ca.suffixFlag then
          { d with sufE := d.sufE ++ ks.map (fun k => (attr, strRev k)) } else d
      | .scor m =>
        let scores' := m.foldl (fun s (p : String × Int) =>
          if p.1 = "" then aset s attr p.2 else aset s (attr ++ ":" ++ p.1) p.2) d.scores
        let d := { d with scores := scores' }
        let d := if ca.prefixFlag && ca.kgStandard then
            { d with preE := d.preE ++ [(attr, ca.kgEx v)] } else d
        if ca.suffixFlag && ca.kgStandard then
          { d with sufE := d.sufE ++ [(attr, ca.kgEx (strRev v))] } else d
      | .nothing => d
    else d
  | _, _, _ => d

/-- Accumulation of the fresh raw snapshot `redis_data` (lines 328 to 329):
every column with a non-null encoded new value is recorded. -/
def redisDataStep (attr : String) (rnval : Option String) (d : Delta) : Delta :=
  match rnval with
  | some rv => { d with redisData := aset d.redisData attr rv }
  | none => d

/-- The change-tracking tail of the per-column loop (lines 378 to 413),
`use_lua` branch: skip an unchanged column unless `full`; count the change;
a removed column contributes a deletion (plus a raw-valued unique removal);
a present column contributes its encoded value and, when unique, the
decoded-old-value removal and the new-value addition. -/
def colStepTail (sc : Schema) (full : Bool) (attr : String)
    (roval oval nval rnval : Option String) (d : Delta) : Delta :=
  if nval = oval && !full then d
  else
    let d := { d with changes := d.changes + 1 }
    if nval = none && !(oval = none) then
      let d := { d with deletedW := d.deletedW ++ [attr] }
      if sc.uniq.contains attr then
        { d with udeleted := aset d.udeleted attr (roval.getD "") }
      else d
    else
      let d := match nval, rnval with
        | some _, some rv => { d with dataW := aset d.dataW attr rv }
        | _, _ => d
      if sc.uniq.contains attr then
        let d := if !(oval = none) && !(roval = rnval) then
            { d with udeleted := aset d.udeleted attr (oval.getD "") }
          else d
        match rnval with
        | some rv => { d with uniqueW := aset d.uniqueW attr rv }
        | none => d
      else d

/-- One iteration of the per-column loop of `_apply_changes` (lines 317 to
413), `use_lua` branch: index-entry generation, change counting, removed
columns, changed/added data and the single-column unique delta. -/
def colStep (sc : Schema) (full delete : Bool) (old new : List (String × String))
    (d : Delta) (ac : String × Column) : Delta :=
  let attr := ac.1
  let ca := ac.2
  let roval := aget old attr
  let oval := roval.map ca.fromRedis
  let nval := aget new attr
  let rnval := nval.map ca.toRedis
  let d := redisDataStep attr rnval d
  let d := keygenStep attr ca delete nval d
  colStepTail sc full attr roval oval nval rnval d

/-- Modelled from the spec: `_encode_unique_constraint` (in `rom/util.py`,
outside the provided sources) encodes the tuple of component values into a
single string; the claims only require a deterministic encoding. -/
def encodeUniqueConstraint (vs : List (Option String)) : String :=
  String.intercalate "\x00" (vs.map (fun v => v.getD ""))

/-- The body of the composite-unique loop of `_apply_changes` (lines 416 to
427) for one group: raw old component values against encoded new component
values; a remove entry when they differ and no old component is null, an
add entry whenever no new component is null. -/
def cuniqueEmit (sc : Schema) (old new : List (String × String)) (g : List String) :
    Option (String × String) × Option (String × String) :=
  let attr := String.intercalate ":" g
  let odata := g.map (aget old)
  let ndata := g.map (fun c => (aget new c).map (sc.colOf c).toRedis)
  let rem := if odata ≠ ndata ∧ ¬ none ∈ odata then
      some (attr, encodeUniqueConstraint odata) else none
  let add := if ¬ none ∈ ndata then some (attr, encodeUniqueConstraint ndata) else none
  (rem, add)

/-- Extension of the `udeleted` and `unique` dicts by one composite-unique
group's emissions. -/
def cuniqueStep (sc : Schema) (old new : List (String × String)) (d : Delta)
    (g : List String) : Delta :=
  let ra := cuniqueEmit sc old new g
  let d := match ra.1 with
    | some av => { d with udeleted := aset d.udeleted av.1 av.2 }
    | none => d
  match ra.2 with
  | some av => { d with uniqueW := aset d.uniqueW av.1 av.2 }
  | none => d

/-- Folds `cuniqueEmit` over the composite-unique groups, extending the
`udeleted` and `unique` dicts. -/
def cuniqueFold (sc : Schema) (old new : List (String × String)) (d : Delta) : Delta :=
  sc.cuniq.foldl (cuniqueStep sc old new) d

/-- The network-free part of `Model._apply_changes` under the atomic-script
protocol: the per-column loop followed by the composite-unique loop. -/
def computeDelta (sc : Schema) (old new : List (String × String)) (full delete : Bool) : Delta :=
  cuniqueFold sc old new (sc.columns.foldl (colStep sc full delete old new) {})

/-! ### The full apply and the entity lifecycle around it -/

inductive ApplyOut : Type
  | ok : Nat → Nat → List (String × String) → ApplyOut
  | uniqueViolation : String → String → ApplyOut
  | columnError : ApplyOut
  deriving DecidableEq

/-- Python truthiness for an optional string value. -/
def truthy (o : Option String) : Bool :=
  !(o.getD "" = "")

/-- Primary-key extraction `old.get(pkey) or new.get(pkey)` with the
`if not pk` check. -/
def pkOf (sc : Schema) (old new : List (String × String)) : Option String :=
  let p := if truthy (aget old sc.pkey) then aget old sc.pkey else aget new sc.pkey
  if truthy p then some (p.getD "") else none

/-- `Model._apply_changes` with `USE_LUA = True`: compute the delta, hand it
to `redis_writer_lua`, and return the changed-column count plus the fresh
raw snapshot (or the uniqueness violation the writer reported).  The first
component is the store after the call, the `Nat` inside `ok` counts the
mutating store commands the script issued. -/
def applyChangesLua (sc : Schema) (st : Store) (old new : List (String × String))
    (full delete : Bool) : Store × ApplyOut :=
  match pkOf sc old new with
  | none => (st, .columnError)
  | some pk =>
    let d := computeDelta sc old new full delete
    match redis_writer_lua st sc.nspace pk d.uniqueW d.udeleted d.deletedW d.dataW d.keys
        d.scores d.preE d.sufE delete with
    | (st', w, some cv) => (st', .uniqueViolation cv.1 cv.2)
    | (st', w, none) => (st', .ok w d.changes d.redisData)

structure EntityState : Type where
  dataM : List (String × String)
  lastM : List (String × String)
  isNew : Bool

/-- `Model.save`: diff the current values against the last-persisted raw
snapshot and apply; a new entity forces a full write. -/
def Model.save (sc : Schema) (es : EntityState) (st : Store) (full : Bool) : Store × ApplyOut :=
  applyChangesLua sc st es.lastM es.dataM (full || es.isNew) false

/-- `Model.delete`: apply with an empty new snapshot in delete mode. -/
def Model.delete (sc : Schema) (es : EntityState) (st : Store) : Store × ApplyOut :=
  applyChangesLua sc st es.lastM [] false true

/-! ### Optimistic-lock fallback protocol (`USE_LUA = False`)

The fallback's unique handling keys the unique-index hash fields by the
encoded value; a field can be absent.  Only the unique-index portion of the
store matters for the protocol's control flow, so an attempt environment is
the unique-index snapshot the WATCH observes plus whether the final EXEC
reports a watch conflict. -/

abbrev FUidx := List ((String × Option String) × String)

/-- The pre-transaction unique check (lines 294 to 314): for each unique
column whose new value is truthy and changed (or `full`), read the recorded
owner of the new encoded value; the first owner that is neither absent, nor
empty, nor this entity's own primary key aborts with a
`UniqueKeyViolation` naming the column and the new value. -/
def checkUniques (sc : Schema) (u : FUidx) (pk : String) (old new : List (String × String))
    (full : Bool) : List String → Option (String × String)
  | [] => none
  | col :: rest =>
    let ouval := aget old col
    let nuval := aget new col
    let nuvale := nuval.map (sc.colOf col).toRedis
    if !(truthy nuval && (!(ouval = nuvale) || full)) then
      checkUniques sc u pk old new full rest
    else
      match aget u (col, nuvale) with
      | none => checkUniques sc u pk old new full rest
      | some ival =>
        if ival = "" || ival = pk then checkUniques sc u pk old new full rest
        else some (col, nuval.getD "")

/-- The unique-index writes the non-scripted branch queues in the
transaction (lines 384 to 413): per changed unique column, HDEL of the old
encoded value (when present) and HSET of the new encoded value to the
primary key. -/
def fallbackUniqueWrites (sc : Schema) (pk : String) (old new : List (String × String))
    (full : Bool) (u : FUidx) : FUidx :=
  sc.columns.foldl (fun u ac =>
    let attr := ac.1
    let ca := ac.2
    if !(sc.uniq.contains attr) then u
    else
      let roval := aget old attr
      let oval := roval.map ca.fromRedis
      let nval := aget new attr
      let rnval := nval.map ca.toRedis
      if nval = oval && !full then u
      else if nval = none && !(oval = none) then adel u (attr, roval)
      else
        let u := if !(oval = none) then adel u (attr, roval) else u
        aset u (attr, rnval) pk) u

structure AttemptEnv : Type where
  uidxSnap : FUidx
  watchConflict : Bool

inductive AttemptRes : Type
  | violation : String → String → AttemptRes
  | conflictRetry : AttemptRes
  | success : Nat → AttemptRes
  deriving DecidableEq

/-- One pass of the `while 1` loop of `_apply_changes` with `USE_LUA` off:
run the unique check against the watched snapshot; a genuine conflict
raises before MULTI, so the snapshot is returned unchanged; otherwise the
batch is committed unless the store reports the watched keys changed.  The
changed-column count of a committed attempt is the shared counting loop. -/
def attemptNoLua (sc : Schema) (pk : String) (old new : List (String × String))
    (full delete : Bool) (env : AttemptEnv) : AttemptRes × FUidx :=
  match checkUniques sc env.uidxSnap pk old new full sc.uniq with
  | some cv => (.violation cv.1 cv.2, env.uidxSnap)
  | none =>
    if env.watchConflict then (.conflictRetry, env.uidxSnap)
    else (.success (computeDelta sc old new full delete).changes,
      fallbackUniqueWrites sc pk old new full env.uidxSnap)

/-- The retry loop: restart from the top on a watch conflict and on nothing
else.  The environment list supplies each attempt's observed snapshot; an
exhausted list models unbounded further contention. -/
def runNoLua (sc : Schema) (pk : String) (old new : List (String × String))
    (full delete : Bool) : List AttemptEnv → Option (AttemptRes × FUidx)
  | [] => none
  | env :: rest =>
    match attemptNoLua sc pk old new full delete env with
    | (.conflictRetry, _) => runNoLua sc pk old new full delete rest
    | r => some r

/-! ### Retrieval: `Model.get` -/

structure REntity : Type where
  rawData : List (String × String)
  deriving DecidableEq

structure GetEnv : Type where
  sess : List (String × REntity)
  stor : List (String × List (String × String))

def pkString (sc : Schema) (i : Int) : String :=
  sc.nspace ++ ":" ++ toString i

/-- HGETALL for a cache miss: a nonempty hash reconstructs an entity
(`cls(_loading=True, **data)`), an empty reply stays unresolved. -/
def loadFromStore (env : GetEnv) (pk : String) : Option REntity :=
  let d := (aget env.stor pk).getD []
  if d.isEmpty then none else some ⟨d⟩

/-- Resolution of one id: the session first, then the store. -/
def resolveId (sc : Schema) (env : GetEnv) (i : Int) : Option REntity :=
  match aget env.sess (pkString sc i) with
  | some e => some e
  | none => loadFromStore env (pkString sc i)

/-- The shared body of `Model.get` (lines 507 to 531): session pass, a
store fetch for the misses when any exist, then removal of the still
missing entries. -/
def getCore (sc : Schema) (env : GetEnv) (ids : List Int) : List REntity :=
  let pks := ids.map (pkString sc)
  let out0 := pks.map (aget env.sess)
  let out1 := if out0.contains none then
      pks.map (fun pk => match aget env.sess pk with
        | some e => some e
        | none => loadFromStore env pk)
    else out0
  out1.reduceOption

/-- `Model.get` on a list of ids. -/
def Model.getMany (sc : Schema) (env : GetEnv) (ids : List Int) : List REntity :=
  getCore sc env ids

/-- `Model.get` on a single id: `out[0] if out else None`. -/
def Model.getOne (sc : Schema) (env : GetEnv) (i : Int) : Option REntity :=
  (getCore sc env [i]).head?

/-- An id argument as Python sees it: already an integer, or a string fed
through `int(...)`. -/
inductive PyId : Type
  | pint : Int → PyId
  | pstr : String → PyId
  deriving DecidableEq

/-- Digit-by-digit accumulation of a decimal numeral; any non-digit
character fails. -/
def digitsValGo : List Char → Nat → Option Nat
  | [], acc => some acc
  | c :: cs, acc =>
    if c.isDigit then digitsValGo cs (acc * 10 + (c.toNat - 48)) else none

/-- Python `int()` on a string: an optionally minus-signed nonempty decimal
numeral (surrounding whitespace and digit separators are not modelled). -/
def pyIntOfString (s : String) : Option Int :=
  match s.data with
  | [] => none
  | '-' :: cs =>
    match cs with
    | [] => none
    | _ => (digitsValGo cs 0).map (fun n => -(n : Int))
  | cs => (digitsValGo cs 0).map (fun n => (n : Int))

/-- Python `int()` applied to an id: integers pass through, strings parse
as a decimal numeral or raise `ValueError`. -/
def pyToInt : PyId → Option Int
  | .pint n => some n
  | .pstr s => pyIntOfString s

/-- Eager `map(int, ids)`: the first unconvertible id raises before any
store or session lookup happens. -/
def intsOf : List PyId → Option (List Int)
  | [] => some []
  | i :: r =>
    match pyToInt i with
    | none => none
    | some n => (intsOf r).map (fun ns => n :: ns)

/-- Entry point of `Model.get` for a list argument: `map(int, ids)` runs
eagerly while the key list is built, so one unconvertible id fails the
whole call before any lookup. -/
def Model.getChecked (sc : Schema) (env : GetEnv) (ids : List PyId) :
    Except String (List REntity) :=
  match intsOf ids with
  | none => .error "ValueError"
  | some ns => .ok (getCore sc env ns)

/-! ### Construction: `Model.__init__` -/

inductive PVal : Type
  | pnone : PVal
  | pint : Int → PVal
  | pstr : String → PVal
  deriving DecidableEq

def PVal.truthyV : PVal → Bool
  | .pnone => false
  | .pint n => !(n = 0)
  | .pstr s => !(s = "")

/-- Storage form of a constructor argument: strings are kept as-is, other
values go through the column's `_to_redis`. -/
def PVal.encodeWith (ca : Column) : PVal → String
  | .pnone => ca.toRedis ""
  | .pint n => ca.toRedis (toString n)
  | .pstr s => s

/-- `Model.__init__` (lines 217 to 236): iterate the declared columns; a
fresh (non-loading) entity given a truthy value for the primary-key column
raises `InvalidColumnValue`; otherwise the last-persisted snapshot records
every non-null argument in storage form.  Attribute descriptors and
session registration are external collaborators and not modelled. -/
def modelInitGo (sc : Schema) (isNew : Bool) (kwargs : List (String × PVal)) :
    List (String × Column) → List (String × String) → Except String (List (String × String))
  | [], lastAcc => .ok lastAcc
  | ac :: rest, lastAcc =>
    let cval := (aget kwargs ac.1).getD .pnone
    if isNew && ac.1 = sc.pkey && cval.truthyV then
      .error "InvalidColumnValue"
    else
      let lastAcc := if cval = .pnone then lastAcc
        else aset lastAcc ac.1 (cval.encodeWith ac.2)
      modelInitGo sc isNew kwargs rest lastAcc

def Model.init (sc : Schema) (loading : Bool) (kwargs : List (String × PVal)) :
    Except String (List (String × String)) :=
  modelInitGo sc (!loading) kwargs sc.columns []

/-! ### Concrete fixtures used by witnesses and counterexamples -/

/-- A `UniquePosition`-style model: integer columns x and y with the
composite constraint `unique_together = [(x, y)]`. -/
def upSchema : Schema where
  nspace := "UP"
  columns := [("id", {}), ("x", {}), ("y", {})]
  pkey := "id"
  uniq := []
  cuniq := [["x", "y"]]

def upRow : List (String × String) := [("id", "1"), ("x", "1"), ("y", "2")]

/-- A `User`-style model with a unique email column. -/
def userSchema : Schema where
  nspace := "U"
  columns := [("id", {}), ("email", {})]
  pkey := "id"
  uniq := ["email"]
  cuniq := []

/-- A trivial model with only the synthesized primary key. -/
def minSchema : Schema where
  nspace := "M"
  columns := [("id", {})]
  pkey := "id"
  uniq := []
  cuniq := []

/-- A store where unique value `a@b` of column email is owned by id 7. -/
def conflictStore : Store where
  uidx := [(("email", "a@b"), "7")]
  rows := []
  sidx := []
  zidx := []
  preIdx := []
  sufIdx := []
  manifest := []

/-- A store holding the persisted row and empty manifest of entity 1 of the
trivial model. -/
def minStore : Store where
  uidx := []
  rows := [("1", [("id", "1")])]
  sidx := []
  zidx := []
  preIdx := []
  sufIdx := []
  manifest := [("1", .m4 [] [] [] [])]

/-- Entity 1 of the trivial model, persisted and unmodified. -/
def minEntity : EntityState where
  dataM := [("id", "1")]
  lastM := [("id", "1")]
  isNew := false

/-! ### Supporting lemmas -/

theorem sessionMapAgree (env : GetEnv) :
    ∀ pks : List String, (pks.map (aget env.sess)).contains none = false →
      pks.map (aget env.sess) = pks.map (fun pk => match aget env.sess pk with
        | some e => some e
        | none => loadFromStore env pk) := by
  intro pks
  induction pks with
  | nil => intro _; rfl
  | cons pk r ih =>
    intro h
    simp only [List.map_cons, List.contains_cons, Bool.or_eq_false_iff] at h
    obtain ⟨h1, h2⟩ := h
    have h1' : aget env.sess pk ≠ none := by
      intro e
      rw [e] at h1
      simp at h1
    match hv : aget env.sess pk with
    | none => exact absurd hv h1'
    | some e =>
      simp only [List.map_cons, hv]
      rw [ih h2]

theorem getCore_eq_resolve (sc : Schema) (env : GetEnv) (ids : List Int) :
    getCore sc env ids = (ids.map (resolveId sc env)).reduceOption := by
  unfold getCore
  by_cases h : ((ids.map (pkString sc)).map (aget env.sess)).contains none
  · simp only [h, if_true]
    congr 1
    rw [List.map_map]
    rfl
  · simp only [Bool.not_eq_true] at h
    simp only [h, if_false, Bool.false_eq_true]
    rw [sessionMapAgree env _ h, List.map_map]
    rfl

/-! ### Claim theorems -/

/-- C7: `Model.get` on an ordered sequence of ids returns exactly the
resolvable entities in input order with unresolvable ids omitted, and on a
single id returns the resolved entity or nothing. -/
theorem c7_get_shape (sc : Schema) (env : GetEnv) (ids : List Int) (i : Int) :
    Model.getMany sc env ids = (ids.map (resolveId sc env)).reduceOption
    ∧ Model.getOne sc env i = resolveId sc env i := by
  refine ⟨getCore_eq_resolve sc env ids, ?_⟩
  unfold Model.getOne
  rw [getCore_eq_resolve sc env [i]]
  match h : resolveId sc env i with
  | none => simp [List.reduceOption, h]
  | some e => simp [List.reduceOption, h]

theorem intsOf_none_of_bad (ids : List PyId) (h : ∃ i ∈ ids, pyToInt i = none) :
    intsOf ids = none := by
  induction ids with
  | nil => simp at h
  | cons a r ih =>
    obtain ⟨i, hmem, hbad⟩ := h
    rcases List.mem_cons.mp hmem with rfl | hr
    · simp [intsOf, hbad]
    · unfold intsOf
      match hp : pyToInt a with
      | none => rfl
      | some n => rw [ih ⟨i, hr, hbad⟩]; rfl

/-- C10: every id supplied to `Model.get` is coerced through `int()` before
key construction, so an unconvertible id raises instead of being omitted or
yielding nil, while a numeric string is accepted exactly like the integer
it denotes. -/
theorem c10_get_int_coercion (sc : Schema) (env : GetEnv) (ids : List PyId)
    (h : ∃ i ∈ ids, pyToInt i = none) :
    Model.getChecked sc env ids = .error "ValueError"
    ∧ ∀ (s : String) (n : Int) (t : List PyId), pyIntOfString s = some n →
        Model.getChecked sc env (.pstr s :: t) = Model.getChecked sc env (.pint n :: t) := by
  constructor
  · unfold Model.getChecked
    rw [intsOf_none_of_bad ids h]
  · intro s n t hs
    unfold Model.getChecked
    have : intsOf (.pstr s :: t) = intsOf (.pint n :: t) := by
      unfold intsOf
      simp [pyToInt, hs]
    rw [this]

/-- C6: a composite-unique tuple with a null component is exempt: no add is
emitted when any new component is null and no remove is emitted when any
old component is null. -/
theorem c6_null_exemption (sc : Schema) (old new : List (String × String)) (g : List String)
    (hg : g ∈ sc.cuniq) :
    (none ∈ g.map (fun c => (aget new c).map (sc.colOf c).toRedis) →
      (cuniqueEmit sc old new g).2 = none)
    ∧ (none ∈ g.map (aget old) → (cuniqueEmit sc old new g).1 = none) := by
  clear hg
  constructor
  · intro hnull
    unfold cuniqueEmit
    simp only [hnull, not_true_eq_false, if_false]
  · intro hnull
    unfold cuniqueEmit
    simp [hnull]

/-- C4 (amended): for a composite-unique group, a remove is emitted exactly
when the old tuple differs from the new encoded tuple and the old tuple has
no null component; an add is emitted exactly when the new tuple has no null
component, regardless of whether the tuples differ. -/
theorem c4_cunique_emission_amended (sc : Schema) (old new : List (String × String))
    (g : List String) (hg : g ∈ sc.cuniq) :
    ((cuniqueEmit sc old new g).1 ≠ none ↔
      (g.map (aget old) ≠ g.map (fun c => (aget new c).map (sc.colOf c).toRedis)
        ∧ ¬ none ∈ g.map (aget old)))
    ∧ ((cuniqueEmit sc old new g).2 ≠ none ↔
      ¬ none ∈ g.map (fun c => (aget new c).map (sc.colOf c).toRedis)) := by
  clear hg
  have h1 : (cuniqueEmit sc old new g).1 =
      (if (g.map (aget old) ≠ g.map (fun c => (aget new c).map (sc.colOf c).toRedis)
          ∧ ¬ none ∈ g.map (aget old)) then
        some (String.intercalate ":" g, encodeUniqueConstraint (g.map (aget old))) else none) := rfl
  have h2 : (cuniqueEmit sc old new g).2 =
      (if ¬ none ∈ g.map (fun c => (aget new c).map (sc.colOf c).toRedis) then
        some (String.intercalate ":" g,
          encodeUniqueConstraint (g.map (fun c => (aget new c).map (sc.colOf c).toRedis)))
        else none) := rfl
  rw [h1, h2]
  constructor
  · by_cases hc : (g.map (aget old) ≠ g.map (fun c => (aget new c).map (sc.colOf c).toRedis)
        ∧ ¬ none ∈ g.map (aget old))
    · simp only [if_pos hc]
      simpa using hc
    · simp only [if_neg hc]
      simpa using hc
  · by_cases hc : ¬ none ∈ g.map (fun c => (aget new c).map (sc.colOf c).toRedis)
    · simp only [if_pos hc]
      simpa using hc
    · simp only [if_neg hc]
      simpa using hc

/-- C4 counterexample: with group `(x, y)` and identical old and new tuples
`("1","2")` the delta still emits a unique-add for the group (while the
claim as stated requires that neither an add nor a remove be emitted when
the tuples are equal). -/
theorem c4_counterexample :
    (["x", "y"].map (aget upRow)
      = ["x", "y"].map (fun c => (aget upRow c).map (upSchema.colOf c).toRedis))
    ∧ (computeDelta upSchema upRow upRow false false).uniqueW = [("x:y", "1\x002")]
    ∧ (computeDelta upSchema upRow upRow false false).udeleted = [] := by
  refine ⟨rfl, rfl, rfl⟩

theorem modelInitGo_error (sc : Schema) (kwargs : List (String × PVal))
    (ht : ((aget kwargs sc.pkey).getD .pnone).truthyV = true) :
    ∀ (cols : List (String × Column)) (acc : List (String × String)),
      (∃ ca, (sc.pkey, ca) ∈ cols) →
      modelInitGo sc true kwargs cols acc = .error "InvalidColumnValue" := by
  intro cols
  induction cols with
  | nil => intro acc h; obtain ⟨ca, hm⟩ := h; simp at hm
  | cons ac rest ih =>
    intro acc h
    obtain ⟨ca, hm⟩ := h
    unfold modelInitGo
    by_cases hpk : ac.1 = sc.pkey
    · rw [hpk]
      simp [ht]
    · have hrest : (sc.pkey, ca) ∈ rest := by
        rcases List.mem_cons.mp hm with he | hr
        · exact absurd (congrArg Prod.fst he).symm hpk
        · exact hr
      have hd : decide (ac.1 = sc.pkey) = false := by simp [hpk]
      simp only [hd, Bool.and_false, Bool.false_and, Bool.false_eq_true, if_false]
      exact ih _ ⟨ca, hrest⟩

theorem modelInitGo_ok (sc : Schema) (kwargs : List (String × PVal)) :
    ∀ (cols : List (String × Column)) (acc : List (String × String)),
      ∃ r, modelInitGo sc false kwargs cols acc = .ok r := by
  intro cols
  induction cols with
  | nil => intro acc; exact ⟨acc, rfl⟩
  | cons ac rest ih =>
    intro acc
    unfold modelInitGo
    simp only [Bool.false_and, Bool.false_eq_true, if_false]
    exact ih _

theorem uniqueWriteRun_uidx (e : String) (u : List (String × String)) (ws : Store × Nat) :
    (uniqueWriteRun e u ws).1.uidx = u.foldl (fun m cv => aset m cv e) ws.1.uidx := rfl

theorem udeleteRun_uidx_fold (e : String) (ud : List (String × String)) (ws : Store × Nat) :
    (udeleteRun e ud ws).1.uidx = (ud.foldl (fun (p : UidxMap × Nat) cv =>
      if aget p.1 cv = some e then (adel p.1 cv, p.2 + 1) else p) (ws.1.uidx, ws.2)).1 := rfl

theorem uniqueWriteRun_manifest (e : String) (u : List (String × String)) (ws : Store × Nat) :
    (uniqueWriteRun e u ws).1.manifest = ws.1.manifest := rfl

theorem udeleteRun_manifest (e : String) (ud : List (String × String)) (ws : Store × Nat) :
    (udeleteRun e ud ws).1.manifest = ws.1.manifest := rfl

theorem saddRun_manifest (e : String) (ks : List String) (ws : Store × Nat) :
    (saddRun e ks ws).1.manifest = ws.1.manifest := rfl

theorem zaddRun_manifest (e : String) (ss : List (String × Int)) (ws : Store × Nat) :
    (zaddRun e ss ws).1.manifest = ws.1.manifest := rfl

theorem preAddRun_manifest (e : String) (ps : List (String × String × Int)) (ws : Store × Nat) :
    (preAddRun e ps ws).1.manifest = ws.1.manifest := rfl

theorem sufAddRun_manifest (e : String) (ps : List (String × String × Int)) (ws : Store × Nat) :
    (sufAddRun e ps ws).1.manifest = ws.1.manifest := rfl

theorem saddRun_rows (e : String) (ks : List String) (ws : Store × Nat) :
    (saddRun e ks ws).1.rows = ws.1.rows := rfl

theorem zaddRun_rows (e : String) (ss : List (String × Int)) (ws : Store × Nat) :
    (zaddRun e ss ws).1.rows = ws.1.rows := rfl

theorem preAddRun_rows (e : String) (ps : List (String × String × Int)) (ws : Store × Nat) :
    (preAddRun e ps ws).1.rows = ws.1.rows := rfl

theorem sufAddRun_rows (e : String) (ps : List (String × String × Int)) (ws : Store × Nat) :
    (sufAddRun e ps ws).1.rows = ws.1.rows := rfl

theorem saddRun_uidx (e : String) (ks : List String) (ws : Store × Nat) :
    (saddRun e ks ws).1.uidx = ws.1.uidx := rfl

theorem zaddRun_uidx (e : String) (ss : List (String × Int)) (ws : Store × Nat) :
    (zaddRun e ss ws).1.uidx = ws.1.uidx := rfl

theorem preAddRun_uidx (e : String) (ps : List (String × String × Int)) (ws : Store × Nat) :
    (preAddRun e ps ws).1.uidx = ws.1.uidx := rfl

theorem sufAddRun_uidx (e : String) (ps : List (String × String × Int)) (ws : Store × Nat) :
    (sufAddRun e ps ws).1.uidx = ws.1.uidx := rfl

theorem deletedRun_uidx (e : String) (ds : List String) (ws : Store × Nat) :
    (deletedRun e ds ws).1.uidx = ws.1.uidx := by
  unfold deletedRun
  split <;> rfl

theorem deletedRun_manifest (e : String) (ds : List String) (ws : Store × Nat) :
    (deletedRun e ds ws).1.manifest = ws.1.manifest := by
  unfold deletedRun
  split <;> rfl

theorem dataRun_uidx (e : String) (ds : List (String × String)) (ws : Store × Nat) :
    (dataRun e ds ws).1.uidx = ws.1.uidx := by
  unfold dataRun
  split <;> rfl

theorem dataRun_manifest (e : String) (ds : List (String × String)) (ws : Store × Nat) :
    (dataRun e ds ws).1.manifest = ws.1.manifest := by
  unfold dataRun
  split <;> rfl

theorem manifestCleanupRun_uidx (e : String) (ws : Store × Nat) :
    (manifestCleanupRun e ws).1.uidx = ws.1.uidx := by
  unfold manifestCleanupRun
  split
  · rfl
  · split
    rfl

theorem manifestCleanupRun_rows (e : String) (ws : Store × Nat) :
    (manifestCleanupRun e ws).1.rows = ws.1.rows := by
  unfold manifestCleanupRun
  split
  · rfl
  · split
    rfl

theorem manifestCleanupRun_manifest (e : String) (ws : Store × Nat) :
    (manifestCleanupRun e ws).1.manifest = ws.1.manifest := by
  unfold manifestCleanupRun
  split
  · rfl
  · split
    rfl

theorem deleteEntityRun_uidx (e : String) (b : Bool) (ws : Store × Nat) :
    (deleteEntityRun e b ws).1.uidx = ws.1.uidx := by
  unfold deleteEntityRun
  split <;> rfl

theorem deleteEntityRun_rows (e : String) (b : Bool) (ws : Store × Nat) :
    (deleteEntityRun e b ws).1.rows = (if b then adel ws.1.rows e else ws.1.rows) := by
  unfold deleteEntityRun
  split <;> simp_all

theorem deleteEntityRun_manifest (e : String) (b : Bool) (ws : Store × Nat) :
    (deleteEntityRun e b ws).1.manifest = (if b then adel ws.1.manifest e else ws.1.manifest) := by
  unfold deleteEntityRun
  split <;> simp_all

theorem manifestWriteRun_uidx (e : String) (b : Bool) (ks : List String) (ss : List (String × Int))
    (ps fs : List (String × String × Int)) (ws : Store × Nat) :
    (manifestWriteRun e b ks ss ps fs ws).1.uidx = ws.1.uidx := by
  unfold manifestWriteRun
  split <;> rfl

theorem manifestWriteRun_rows (e : String) (b : Bool) (ks : List String) (ss : List (String × Int))
    (ps fs : List (String × String × Int)) (ws : Store × Nat) :
    (manifestWriteRun e b ks ss ps fs ws).1.rows = ws.1.rows := by
  unfold manifestWriteRun
  split <;> rfl

theorem manifestWriteRun_manifest (e : String) (b : Bool) (ks : List String)
    (ss : List (String × Int)) (ps fs : List (String × String × Int)) (ws : Store × Nat) :
    (manifestWriteRun e b ks ss ps fs ws).1.manifest =
      (if b then ws.1.manifest else aset ws.1.manifest e (StoredIdx.m4 ks (ss.map Prod.fst)
        (ps.map fun t => (t.1, t.2.1)) (fs.map fun t => (t.1, t.2.1)))) := by
  unfold manifestWriteRun
  split <;> simp_all

theorem uniqueCheckFirst_none_spec (u : UidxMap) (eid : String) :
    ∀ l : List (String × String), uniqueCheckFirst u eid l = none →
      ∀ cv ∈ l, ∀ j, aget u cv = some j → j = eid := by
  intro l
  induction l with
  | nil => intro _ cv hm; simp at hm
  | cons p r ih =>
    intro h cv hm j hj
    unfold uniqueCheckFirst at h
    split at h
    next j0 heq =>
      split at h
      next he =>
        rcases List.mem_cons.mp hm with rfl | hr
        · rw [heq] at hj
          cases hj
          exact he
        · exact ih h cv hr j hj
      next he => cases h
    next heq =>
      rcases List.mem_cons.mp hm with rfl | hr
      · rw [heq] at hj
        cases hj
      · exact ih h cv hr j hj

theorem uniqueCheckFirst_some_spec (u : UidxMap) (eid : String) :
    ∀ l : List (String × String), ∀ cv, uniqueCheckFirst u eid l = some cv →
      cv ∈ l ∧ ∃ j, aget u cv = some j ∧ j ≠ eid := by
  intro l
  induction l with
  | nil => intro cv h; cases h
  | cons p r ih =>
    intro cv h
    unfold uniqueCheckFirst at h
    split at h
    next j0 heq =>
      split at h
      next he =>
        obtain ⟨hm, hj⟩ := ih cv h
        exact ⟨List.mem_cons_of_mem p hm, hj⟩
      next he =>
        cases h
        exact ⟨List.mem_cons_self p r, ⟨j0, heq, he⟩⟩
    next heq =>
      obtain ⟨hm, hj⟩ := ih cv h
      exact ⟨List.mem_cons_of_mem p hm, hj⟩

theorem aget_foldl_aset_not_mem {α β : Type} [DecidableEq α] (v : β) (k : α) :
    ∀ (l : List α) (m : List (α × β)), ¬ k ∈ l →
      aget (l.foldl (fun m kk => aset m kk v) m) k = aget m k := by
  intro l
  induction l with
  | nil => intro m _; rfl
  | cons a r ih =>
    intro m hk
    have hka : k ≠ a := fun e => hk (e ▸ List.mem_cons_self a r)
    have hkr : ¬ k ∈ r := fun e => hk (List.mem_cons_of_mem a e)
    simp only [List.foldl_cons]
    rw [ih _ hkr, aget_aset_ne m a k v hka]

theorem aget_udelete_fold (eid : String) (c : String × String) (j : String) (hj : j ≠ eid) :
    ∀ (l : List (String × String)) (m : UidxMap) (n : Nat), aget m c = some j →
      aget (l.foldl (fun (p : UidxMap × Nat) cv =>
        if aget p.1 cv = some eid then (adel p.1 cv, p.2 + 1) else p) (m, n)).1 c = some j := by
  intro l
  induction l with
  | nil => intro m n hm; exact hm
  | cons a r ih =>
    intro m n hm
    simp only [List.foldl_cons]
    by_cases hc : aget m a = some eid
    · rw [if_pos hc]
      have hca : c ≠ a := by
        intro e
        rw [← e, hm] at hc
        exact hj (Option.some.inj hc)
      exact ih _ _ (by rw [aget_adel_ne m a c hca]; exact hm)
    · rw [if_neg hc]
      exact ih _ _ hm

/-- C8: the writer script never removes (or changes) a unique-index entry
owned by a different entity: whatever the arguments, an entry whose owner
is not the writing entity's id survives the script with its owner intact. -/
theorem c8_foreign_owner_preserved (st : Store) (ns eid : String)
    (uniqueA udeleteA : List (String × String)) (deletedA : List String)
    (dataA : List (String × String)) (keysA : List String) (scoredA : List (String × Int))
    (preA sufA : List (String × String × Int)) (isDel : Bool) (c : String × String) (j : String)
    (hown : aget st.uidx c = some j) (hj : j ≠ eid) :
    aget (luaWriterScript st ns eid uniqueA udeleteA deletedA dataA keysA scoredA preA sufA
      isDel).1.uidx c = some j := by
  unfold luaWriterScript
  cases hc : uniqueCheckFirst st.uidx eid uniqueA with
  | some cv => exact hown
  | none =>
    have hnotin : ¬ c ∈ uniqueA := by
      intro hmem
      exact hj (uniqueCheckFirst_none_spec st.uidx eid uniqueA hc c hmem j hown)
    show aget (luaWriterApply st eid uniqueA udeleteA deletedA dataA keysA scoredA preA sufA
      isDel).1.uidx c = some j
    unfold luaWriterApply
    rw [manifestWriteRun_uidx, sufAddRun_uidx, preAddRun_uidx, zaddRun_uidx, saddRun_uidx,
      deleteEntityRun_uidx, manifestCleanupRun_uidx, dataRun_uidx, deletedRun_uidx,
      udeleteRun_uidx_fold]
    apply aget_udelete_fold eid c j hj
    rw [uniqueWriteRun_uidx]
    have hbase : (st, 0).1.uidx = st.uidx := rfl
    rw [hbase, aget_foldl_aset_not_mem eid c uniqueA st.uidx hnotin]
    exact hown

theorem luaWriterApply_manifest (st : Store) (eid : String)
    (u ud : List (String × String)) (dl : List String) (da : List (String × String))
    (ks : List String) (ss : List (String × Int)) (ps fs : List (String × String × Int))
    (isDel : Bool) :
    (luaWriterApply st eid u ud dl da ks ss ps fs isDel).1.manifest =
      (if isDel then adel st.manifest eid else aset st.manifest eid (StoredIdx.m4 ks
        (ss.map Prod.fst) (ps.map fun t => (t.1, t.2.1)) (fs.map fun t => (t.1, t.2.1)))) := by
  unfold luaWriterApply
  rw [manifestWriteRun_manifest, sufAddRun_manifest, preAddRun_manifest, zaddRun_manifest,
    saddRun_manifest, deleteEntityRun_manifest, manifestCleanupRun_manifest, dataRun_manifest,
    deletedRun_manifest, udeleteRun_manifest, uniqueWriteRun_manifest]
  cases isDel <;> simp

theorem luaWriterApply_rows_delete (st : Store) (eid : String)
    (u ud : List (String × String)) (dl : List String) (da : List (String × String))
    (ks : List String) (ss : List (String × Int)) (ps fs : List (String × String × Int)) :
    aget (luaWriterApply st eid u ud dl da ks ss ps fs true).1.rows eid = none := by
  unfold luaWriterApply
  rw [manifestWriteRun_rows, sufAddRun_rows, preAddRun_rows, zaddRun_rows, saddRun_rows,
    deleteEntityRun_rows]
  simp [aget_adel_self]

/-- C2: a successful non-delete apply overwrites the entity's manifest with
exactly the set, range, prefix and suffix entries written by that apply; a
successful delete removes the entity row and its manifest entry and writes
no new manifest. -/
theorem c2_manifest_lifecycle (sc : Schema) (st : Store) (old new : List (String × String))
    (full del : Bool) (st' : Store) (w ch : Nat) (rd : List (String × String)) (pk : String)
    (hpk : pkOf sc old new = some pk)
    (h : applyChangesLua sc st old new full del = (st', .ok w ch rd)) :
    (del = false → aget st'.manifest pk = some (StoredIdx.m4
      (computeDelta sc old new full del).keys
      ((computeDelta sc old new full del).scores.map Prod.fst)
      (computeDelta sc old new full del).preE
      (computeDelta sc old new full del).sufE))
    ∧ (del = true → aget st'.rows pk = none ∧ aget st'.manifest pk = none) := by
  unfold applyChangesLua at h
  rw [hpk] at h
  dsimp only at h
  rcases hr : redis_writer_lua st sc.nspace pk (computeDelta sc old new full del).uniqueW
      (computeDelta sc old new full del).udeleted (computeDelta sc old new full del).deletedW
      (computeDelta sc old new full del).dataW (computeDelta sc old new full del).keys
      (computeDelta sc old new full del).scores (computeDelta sc old new full del).preE
      (computeDelta sc old new full del).sufE del with ⟨st2, w2, res⟩
  rw [hr] at h
  cases res with
  | some cv => simp at h
  | none =>
    simp only [Prod.mk.injEq, ApplyOut.ok.injEq] at h
    obtain ⟨rfl, -, -, -⟩ := h
    unfold redis_writer_lua at hr
    dsimp only at hr
    rcases hs : luaWriterScript st sc.nspace pk (computeDelta sc old new full del).uniqueW
        (computeDelta sc old new full del).udeleted (computeDelta sc old new full del).deletedW
        (computeDelta sc old new full del).dataW (computeDelta sc old new full del).keys
        (computeDelta sc old new full del).scores
        ((computeDelta sc old new full del).preE.map fun p => (p.1, p.2, prefixScore p.2))
        ((computeDelta sc old new full del).sufE.map fun p => (p.1, p.2, prefixScore p.2))
        del with ⟨st3, w3, res3⟩
    rw [hs] at hr
    cases res3 with
    | some col => simp at hr
    | none =>
      simp only [Prod.mk.injEq] at hr
      obtain ⟨rfl, -, -⟩ := hr
      unfold luaWriterScript at hs
      cases hc : uniqueCheckFirst st.uidx pk (computeDelta sc old new full del).uniqueW with
      | some cv => rw [hc] at hs; simp at hs
      | none =>
        rw [hc] at hs
        simp only [Prod.mk.injEq] at hs
        obtain ⟨rfl, -⟩ := hs
        constructor
        · intro hdel
          rw [luaWriterApply_manifest, hdel]
          have hmap : ∀ l : List (String × String),
              List.map ((fun t : String × String × Int => (t.1, t.2.1)) ∘
                fun p : String × String => (p.1, p.2, prefixScore p.2)) l = l := by
            intro l
            induction l with
            | nil => rfl
            | cons a r ih => simp [ih]
          simp only [if_false, Bool.false_eq_true, aget_aset_self, List.map_map, hmap]
        · intro hdel
          subst hdel
          refine ⟨luaWriterApply_rows_delete _ _ _ _ _ _ _ _ _ _, ?_⟩
          rw [luaWriterApply_manifest]
          simp [aget_adel_self]

/-- Distinct keys, the invariant of every dict-modelling association list
built through `aset`. -/
def NoDupKeys {α β : Type} (l : List (α × β)) : Prop := (l.map Prod.fst).Nodup

theorem adel_sublist {α β : Type} [DecidableEq α] (m : List (α × β)) (k : α) :
    List.Sublist (adel m k) m := by
  induction m with
  | nil => simp [adel]
  | cons p r ih =>
    by_cases hp : p.1 = k
    · simp only [adel, if_pos hp]
      exact List.Sublist.cons p ih
    · simp only [adel, if_neg hp]
      exact List.Sublist.cons₂ p ih

theorem noDupKeys_adel {α β : Type} [DecidableEq α] (m : List (α × β)) (k : α)
    (h : NoDupKeys m) : NoDupKeys (adel m k) :=
  List.Nodup.sublist ((adel_sublist m k).map Prod.fst) h

theorem not_mem_keys_adel {α β : Type} [DecidableEq α] (m : List (α × β)) (k : α) :
    ¬ k ∈ (adel m k).map Prod.fst := by
  induction m with
  | nil => simp [adel]
  | cons p r ih =>
    by_cases hp : p.1 = k
    · simp only [adel, if_pos hp]
      exact ih
    · simp only [adel, if_neg hp, List.map_cons, List.mem_cons]
      rintro (he | hm)
      · exact hp he.symm
      · exact ih hm

theorem noDupKeys_aset {α β : Type} [DecidableEq α] (m : List (α × β)) (k : α) (v : β)
    (h : NoDupKeys m) : NoDupKeys (aset m k v) := by
  unfold NoDupKeys aset
  simp only [List.map_cons]
  exact List.nodup_cons.mpr ⟨not_mem_keys_adel m k, noDupKeys_adel m k h⟩

theorem aget_of_mem_noDupKeys {α β : Type} [DecidableEq α] :
    ∀ (m : List (α × β)) (k : α) (v : β), NoDupKeys m → (k, v) ∈ m → aget m k = some v := by
  intro m
  induction m with
  | nil => intro k v _ hm; simp at hm
  | cons p r ih =>
    intro k v h hm
    unfold NoDupKeys at h
    simp only [List.map_cons, List.nodup_cons] at h
    rcases List.mem_cons.mp hm with rfl | hr
    · simp [aget]
    · have hk : ¬ p.1 = k := by
        intro e
        exact h.1 (e ▸ List.mem_map_of_mem Prod.fst hr)
      simp only [aget, if_neg hk]
      exact ih k v h.2 hr

theorem keygenStep_uniqueW (attr : String) (ca : Column) (delete : Bool) (nval : Option String)
    (d : Delta) : (keygenStep attr ca delete nval d).uniqueW = d.uniqueW := by
  unfold keygenStep
  (repeat' split) <;> rfl

theorem keygenStep_udeleted (attr : String) (ca : Column) (delete : Bool) (nval : Option String)
    (d : Delta) : (keygenStep attr ca delete nval d).udeleted = d.udeleted := by
  unfold keygenStep
  (repeat' split) <;> rfl

theorem keygenStep_changes (attr : String) (ca : Column) (delete : Bool) (nval : Option String)
    (d : Delta) : (keygenStep attr ca delete nval d).changes = d.changes := by
  unfold keygenStep
  (repeat' split) <;> rfl

theorem keygenStep_dataW (attr : String) (ca : Column) (delete : Bool) (nval : Option String)
    (d : Delta) : (keygenStep attr ca delete nval d).dataW = d.dataW := by
  unfold keygenStep
  (repeat' split) <;> rfl

theorem keygenStep_deletedW (attr : String) (ca : Column) (delete : Bool) (nval : Option String)
    (d : Delta) : (keygenStep attr ca delete nval d).deletedW = d.deletedW := by
  unfold keygenStep
  (repeat' split) <;> rfl

theorem redisDataStep_uniqueW (attr : String) (rnval : Option String) (d : Delta) :
    (redisDataStep attr rnval d).uniqueW = d.uniqueW := by
  cases rnval <;> rfl

theorem redisDataStep_udeleted (attr : String) (rnval : Option String) (d : Delta) :
    (redisDataStep attr rnval d).udeleted = d.udeleted := by
  cases rnval <;> rfl

theorem redisDataStep_changes (attr : String) (rnval : Option String) (d : Delta) :
    (redisDataStep attr rnval d).changes = d.changes := by
  cases rnval <;> rfl

theorem redisDataStep_dataW (attr : String) (rnval : Option String) (d : Delta) :
    (redisDataStep attr rnval d).dataW = d.dataW := by
  cases rnval <;> rfl

theorem redisDataStep_deletedW (attr : String) (rnval : Option String) (d : Delta) :
    (redisDataStep attr rnval d).deletedW = d.deletedW := by
  cases rnval <;> rfl

theorem colStepTail_uniqueW_shape (sc : Schema) (full : Bool) (attr : String)
    (roval oval nval rnval : Option String) (d : Delta) :
    (colStepTail sc full attr roval oval nval rnval d).uniqueW = d.uniqueW
    ∨ ∃ a v, (colStepTail sc full attr roval oval nval rnval d).uniqueW = aset d.uniqueW a v := by
  unfold colStepTail
  (repeat' split) <;>
    first
      | (left; rfl)
      | (right; exact ⟨_, _, rfl⟩)

theorem colStep_uniqueW_shape (sc : Schema) (full delete : Bool)
    (old new : List (String × String)) (d : Delta) (ac : String × Column) :
    (colStep sc full delete old new d ac).uniqueW = d.uniqueW
    ∨ ∃ a v, (colStep sc full delete old new d ac).uniqueW = aset d.uniqueW a v := by
  unfold colStep
  dsimp only
  rcases colStepTail_uniqueW_shape sc full ac.1 (aget old ac.1)
      ((aget old ac.1).map ac.2.fromRedis) (aget new ac.1) ((aget new ac.1).map ac.2.toRedis)
      (keygenStep ac.1 ac.2 delete (aget new ac.1)
        (redisDataStep ac.1 ((aget new ac.1).map ac.2.toRedis) d)) with he | ⟨a, v, he⟩
  · left
    rw [he, keygenStep_uniqueW, redisDataStep_uniqueW]
  · right
    refine ⟨a, v, ?_⟩
    rw [he, keygenStep_uniqueW, redisDataStep_uniqueW]

theorem cuniqueStep_uniqueW_shape (sc : Schema) (old new : List (String × String)) (d : Delta)
    (g : List String) :
    (cuniqueStep sc old new d g).uniqueW = d.uniqueW
    ∨ ∃ a v, (cuniqueStep sc old new d g).uniqueW = aset d.uniqueW a v := by
  unfold cuniqueStep
  dsimp only
  rcases h2 : (cuniqueEmit sc old new g).2 with _ | av2
  · left
    rcases h1 : (cuniqueEmit sc old new g).1 with _ | av1 <;> rfl
  · right
    refine ⟨av2.1, av2.2, ?_⟩
    rcases h1 : (cuniqueEmit sc old new g).1 with _ | av1 <;> rfl

theorem foldl_colStep_uniqueW_nodup (sc : Schema) (full delete : Bool)
    (old new : List (String × String)) :
    ∀ (cols : List (String × Column)) (d : Delta), NoDupKeys d.uniqueW →
      NoDupKeys ((cols.foldl (colStep sc full delete old new) d)).uniqueW := by
  intro cols
  induction cols with
  | nil => intro d h; exact h
  | cons ac rest ih =>
    intro d h
    simp only [List.foldl_cons]
    apply ih
    rcases colStep_uniqueW_shape sc full delete old new d ac with he | ⟨a, v, he⟩
    · rw [he]; exact h
    · rw [he]; exact noDupKeys_aset _ _ _ h

theorem foldl_cuniqueStep_uniqueW_nodup (sc : Schema) (old new : List (String × String)) :
    ∀ (gs : List (List String)) (d : Delta), NoDupKeys d.uniqueW →
      NoDupKeys ((gs.foldl (cuniqueStep sc old new) d)).uniqueW := by
  intro gs
  induction gs with
  | nil => intro d h; exact h
  | cons g rest ih =>
    intro d h
    simp only [List.foldl_cons]
    apply ih
    rcases cuniqueStep_uniqueW_shape sc old new d g with he | ⟨a, v, he⟩
    · rw [he]; exact h
    · rw [he]; exact noDupKeys_aset _ _ _ h

theorem computeDelta_uniqueW_nodup (sc : Schema) (old new : List (String × String))
    (full delete : Bool) : NoDupKeys (computeDelta sc old new full delete).uniqueW := by
  unfold computeDelta cuniqueFold
  apply foldl_cuniqueStep_uniqueW_nodup
  apply foldl_colStep_uniqueW_nodup
  unfold NoDupKeys
  simp

/-- C1: under the atomic-script protocol, when any new unique or
composite-unique value is already owned by a different primary key, the
whole apply aborts with a uniqueness violation naming a genuinely
conflicting column and its new value, and the store is left exactly as it
was: no field, unique, index or manifest write happens. -/
theorem c1_atomic_unique_abort (sc : Schema) (st : Store) (old new : List (String × String))
    (full del : Bool) (pk : String) (c v j : String)
    (hpk : pkOf sc old new = some pk)
    (hmem : (c, v) ∈ (computeDelta sc old new full del).uniqueW)
    (hown : aget st.uidx (c, v) = some j) (hj : j ≠ pk) :
    ∃ c2 v2 j2, applyChangesLua sc st old new full del = (st, .uniqueViolation c2 v2)
      ∧ (c2, v2) ∈ (computeDelta sc old new full del).uniqueW
      ∧ aget st.uidx (c2, v2) = some j2 ∧ j2 ≠ pk := by
  have hnodup := computeDelta_uniqueW_nodup sc old new full del
  cases hc : uniqueCheckFirst st.uidx pk (computeDelta sc old new full del).uniqueW with
  | none =>
    exact absurd (uniqueCheckFirst_none_spec _ _ _ hc (c, v) hmem j hown) hj
  | some cv =>
    obtain ⟨hm2, j2, hj2, hne⟩ := uniqueCheckFirst_some_spec _ _ _ cv hc
    have haget : aget (computeDelta sc old new full del).uniqueW cv.1 = some cv.2 :=
      aget_of_mem_noDupKeys _ _ _ hnodup hm2
    refine ⟨cv.1, cv.2, j2, ?_, hm2, hj2, hne⟩
    have h1 : luaWriterScript st sc.nspace pk (computeDelta sc old new full del).uniqueW
        (computeDelta sc old new full del).udeleted (computeDelta sc old new full del).deletedW
        (computeDelta sc old new full del).dataW (computeDelta sc old new full del).keys
        (computeDelta sc old new full del).scores
        ((computeDelta sc old new full del).preE.map fun p => (p.1, p.2, prefixScore p.2))
        ((computeDelta sc old new full del).sufE.map fun p => (p.1, p.2, prefixScore p.2))
        del = (st, 0, some cv.1) := by
      unfold luaWriterScript
      rw [hc]
    have h2 : redis_writer_lua st sc.nspace pk (computeDelta sc old new full del).uniqueW
        (computeDelta sc old new full del).udeleted (computeDelta sc old new full del).deletedW
        (computeDelta sc old new full del).dataW (computeDelta sc old new full del).keys
        (computeDelta sc old new full del).scores (computeDelta sc old new full del).preE
        (computeDelta sc old new full del).sufE del = (st, 0, some (cv.1, cv.2)) := by
      unfold redis_writer_lua
      dsimp only
      rw [h1]
      simp [haget]
    unfold applyChangesLua
    rw [hpk]
    dsimp only
    rw [h2]

theorem colStepTail_skip (sc : Schema) (attr : String)
    (roval oval nval rnval : Option String) (d : Delta) (h : nval = oval) :
    colStepTail sc false attr roval oval nval rnval d = d := by
  unfold colStepTail
  rw [h]
  simp

theorem colStep_noop (sc : Schema) (delete : Bool) (old new : List (String × String))
    (d : Delta) (ac : String × Column)
    (h : aget new ac.1 = (aget old ac.1).map ac.2.fromRedis) :
    (colStep sc false delete old new d ac).changes = d.changes
    ∧ (colStep sc false delete old new d ac).dataW = d.dataW
    ∧ (colStep sc false delete old new d ac).deletedW = d.deletedW
    ∧ (colStep sc false delete old new d ac).udeleted = d.udeleted := by
  unfold colStep
  dsimp only
  rw [colStepTail_skip sc ac.1 _ _ _ _ _ h]
  refine ⟨?_, ?_, ?_, ?_⟩
  · rw [keygenStep_changes, redisDataStep_changes]
  · rw [keygenStep_dataW, redisDataStep_dataW]
  · rw [keygenStep_deletedW, redisDataStep_deletedW]
  · rw [keygenStep_udeleted, redisDataStep_udeleted]

theorem foldl_colStep_noop (sc : Schema) (delete : Bool) (old new : List (String × String)) :
    ∀ (cols : List (String × Column)) (d : Delta),
      (∀ ac ∈ cols, aget new ac.1 = (aget old ac.1).map ac.2.fromRedis) →
      ((cols.foldl (colStep sc false delete old new) d).changes = d.changes
       ∧ (cols.foldl (colStep sc false delete old new) d).dataW = d.dataW
       ∧ (cols.foldl (colStep sc false delete old new) d).deletedW = d.deletedW
       ∧ (cols.foldl (colStep sc false delete old new) d).udeleted = d.udeleted) := by
  intro cols
  induction cols with
  | nil => intro d _; exact ⟨rfl, rfl, rfl, rfl⟩
  | cons ac rest ih =>
    intro d h
    simp only [List.foldl_cons]
    obtain ⟨h1, h2, h3, h4⟩ := ih (colStep sc false delete old new d ac)
      (fun x hx => h x (List.mem_cons_of_mem ac hx))
    obtain ⟨g1, g2, g3, g4⟩ := colStep_noop sc delete old new d ac
      (h ac (List.mem_cons_self ac rest))
    exact ⟨h1.trans g1, h2.trans g2, h3.trans g3, h4.trans g4⟩

theorem cuniqueEmit_rem_none_of_eq (sc : Schema) (old new : List (String × String))
    (g : List String)
    (h : g.map (aget old) = g.map (fun c => (aget new c).map (sc.colOf c).toRedis)) :
    (cuniqueEmit sc old new g).1 = none := by
  unfold cuniqueEmit
  dsimp only
  exact if_neg (fun hc => hc.1 h)

theorem cuniqueStep_noRemove (sc : Schema) (old new : List (String × String)) (d : Delta)
    (g : List String) (h : (cuniqueEmit sc old new g).1 = none) :
    (cuniqueStep sc old new d g).changes = d.changes
    ∧ (cuniqueStep sc old new d g).dataW = d.dataW
    ∧ (cuniqueStep sc old new d g).deletedW = d.deletedW
    ∧ (cuniqueStep sc old new d g).udeleted = d.udeleted := by
  unfold cuniqueStep
  dsimp only
  rw [h]
  rcases h2 : (cuniqueEmit sc old new g).2 with _ | av2 <;> exact ⟨rfl, rfl, rfl, rfl⟩

theorem foldl_cuniqueStep_noop (sc : Schema) (old new : List (String × String)) :
    ∀ (gs : List (List String)) (d : Delta),
      (∀ g ∈ gs, g.map (aget old) = g.map (fun c => (aget new c).map (sc.colOf c).toRedis)) →
      ((gs.foldl (cuniqueStep sc old new) d).changes = d.changes
       ∧ (gs.foldl (cuniqueStep sc old new) d).dataW = d.dataW
       ∧ (gs.foldl (cuniqueStep sc old new) d).deletedW = d.deletedW
       ∧ (gs.foldl (cuniqueStep sc old new) d).udeleted = d.udeleted) := by
  intro gs
  induction gs with
  | nil => intro d _; exact ⟨rfl, rfl, rfl, rfl⟩
  | cons g rest ih =>
    intro d h
    simp only [List.foldl_cons]
    obtain ⟨h1, h2, h3, h4⟩ := ih (cuniqueStep sc old new d g)
      (fun x hx => h x (List.mem_cons_of_mem g hx))
    obtain ⟨g1, g2, g3, g4⟩ := cuniqueStep_noRemove sc old new d g
      (cuniqueEmit_rem_none_of_eq sc old new g (h g (List.mem_cons_self g rest)))
    exact ⟨h1.trans g1, h2.trans g2, h3.trans g3, h4.trans g4⟩

/-- C3 (amended): saving an already-persisted entity whose values all equal
its last-persisted snapshot with `full = false` yields a changed-count of
0 and a delta with no field writes, no field deletions and no unique
removals; but the claim's "zero writes" does not hold, because the apply
still invokes the writer, which re-issues the index entries and rewrites
the manifest (see the counterexample). -/
theorem c3_noop_save_amended (sc : Schema) (es : EntityState)
    (hnew : es.isNew = false)
    (hvals : ∀ ac ∈ sc.columns, aget es.dataM ac.1 = (aget es.lastM ac.1).map ac.2.fromRedis)
    (henc : ∀ g ∈ sc.cuniq, g.map (aget es.lastM) =
      g.map (fun c => (aget es.dataM c).map (sc.colOf c).toRedis)) :
    (computeDelta sc es.lastM es.dataM false false).changes = 0
    ∧ (computeDelta sc es.lastM es.dataM false false).dataW = []
    ∧ (computeDelta sc es.lastM es.dataM false false).deletedW = []
    ∧ (computeDelta sc es.lastM es.dataM false false).udeleted = []
    ∧ ∀ (st st' : Store) (w ch : Nat) (rd : List (String × String)),
        Model.save sc es st false = (st', .ok w ch rd) → ch = 0 := by
  have hcols := foldl_colStep_noop sc false es.lastM es.dataM sc.columns {} hvals
  have hgs := foldl_cuniqueStep_noop sc es.lastM es.dataM sc.cuniq
    (sc.columns.foldl (colStep sc false false es.lastM es.dataM) {}) henc
  have hch : (computeDelta sc es.lastM es.dataM false false).changes = 0 := by
    unfold computeDelta cuniqueFold
    rw [hgs.1, hcols.1]
  have hda : (computeDelta sc es.lastM es.dataM false false).dataW = [] := by
    unfold computeDelta cuniqueFold
    rw [hgs.2.1, hcols.2.1]
  have hde : (computeDelta sc es.lastM es.dataM false false).deletedW = [] := by
    unfold computeDelta cuniqueFold
    rw [hgs.2.2.1, hcols.2.2.1]
  have hud : (computeDelta sc es.lastM es.dataM false false).udeleted = [] := by
    unfold computeDelta cuniqueFold
    rw [hgs.2.2.2, hcols.2.2.2]
  refine ⟨hch, hda, hde, hud, ?_⟩
  intro st st' w ch rd h
  unfold Model.save at h
  rw [hnew] at h
  simp only [Bool.or_self] at h
  unfold applyChangesLua at h
  cases hp : pkOf sc es.lastM es.dataM with
  | none => rw [hp] at h; simp at h
  | some pk =>
    rw [hp] at h
    dsimp only at h
    rcases hr : redis_writer_lua st sc.nspace pk
        (computeDelta sc es.lastM es.dataM false false).uniqueW
        (computeDelta sc es.lastM es.dataM false false).udeleted
        (computeDelta sc es.lastM es.dataM false false).deletedW
        (computeDelta sc es.lastM es.dataM false false).dataW
        (computeDelta sc es.lastM es.dataM false false).keys
        (computeDelta sc es.lastM es.dataM false false).scores
        (computeDelta sc es.lastM es.dataM false false).preE
        (computeDelta sc es.lastM es.dataM false false).sufE false with ⟨st2, w2, res⟩
    rw [hr] at h
    cases res with
    | some cv => simp at h
    | none =>
      simp only [Prod.mk.injEq, ApplyOut.ok.injEq] at h
      obtain ⟨-, -, hcheq, -⟩ := h
      rw [← hcheq]
      exact hch

/-- C3 counterexample: a persisted, unchanged entity saved with
`full = false` returns a changed-count of 0 yet the apply issues exactly one
mutating store command (the manifest rewrite), refuting "performs zero
writes to the store". -/
theorem c3_counterexample :
    (∀ ac ∈ minSchema.columns, aget minEntity.dataM ac.1
      = (aget minEntity.lastM ac.1).map ac.2.fromRedis)
    ∧ minEntity.isNew = false
    ∧ (Model.save minSchema minEntity minStore false).2 = ApplyOut.ok 1 0 [("id", "1")]
    ∧ ¬ (1 : Nat) = 0 := by
  refine ⟨?_, rfl, rfl, by decide⟩
  intro ac hac
  have hcols : minSchema.columns = [("id", {})] := rfl
  rw [hcols, List.mem_singleton] at hac
  subst hac
  rfl

theorem checkUniquesF_some_spec (sc : Schema) (u : FUidx) (pk : String)
    (old new : List (String × String)) (full : Bool) :
    ∀ (l : List String) (c v : String), checkUniques sc u pk old new full l = some (c, v) →
      ∃ ival, aget u (c, (aget new c).map (sc.colOf c).toRedis) = some ival
        ∧ ¬ ival = "" ∧ ¬ ival = pk ∧ v = (aget new c).getD "" ∧ c ∈ l := by
  intro l
  induction l with
  | nil => intro c v h; cases h
  | cons col rest ih =>
    intro c v h
    unfold checkUniques at h
    dsimp only at h
    split at h
    next hskip =>
      obtain ⟨ival, h1, h2, h3, h4, h5⟩ := ih c v h
      exact ⟨ival, h1, h2, h3, h4, List.mem_cons_of_mem col h5⟩
    next hskip =>
      split at h
      next heq =>
        obtain ⟨ival, h1, h2, h3, h4, h5⟩ := ih c v h
        exact ⟨ival, h1, h2, h3, h4, List.mem_cons_of_mem col h5⟩
      next ival heq =>
        split at h
        next hok =>
          obtain ⟨ival2, h1, h2, h3, h4, h5⟩ := ih c v h
          exact ⟨ival2, h1, h2, h3, h4, List.mem_cons_of_mem col h5⟩
        next hok =>
          cases h
          simp only [Bool.or_eq_true, not_or] at hok
          push_neg at hok
          refine ⟨ival, heq, ?_, ?_, rfl, List.mem_cons_self col rest⟩
          · intro he
            exact hok.1 (by simp [he])
          · intro he
            exact hok.2 (by simp [he])

/-- C5: in the optimistic-lock fallback, a genuine uniqueness conflict (the
candidate value recorded to an owner that is neither absent, empty, nor
this entity's primary key) stops the whole loop at that attempt with an
immediate violation, leaving the watched snapshot uncommitted, whatever
environments follow; a store-reported watch conflict is the only condition
that restarts the loop. -/
theorem c5_fallback_conflict_no_retry (sc : Schema) (pk : String)
    (old new : List (String × String)) (full delete : Bool) (env : AttemptEnv)
    (rest : List AttemptEnv) (c v : String)
    (hc : checkUniques sc env.uidxSnap pk old new full sc.uniq = some (c, v)) :
    runNoLua sc pk old new full delete (env :: rest)
      = some (.violation c v, env.uidxSnap)
    ∧ (∃ ival, aget env.uidxSnap (c, (aget new c).map (sc.colOf c).toRedis) = some ival
        ∧ ¬ ival = "" ∧ ¬ ival = pk)
    ∧ (∀ env2, (attemptNoLua sc pk old new full delete env2).1 = .conflictRetry ↔
        (checkUniques sc env2.uidxSnap pk old new full sc.uniq = none
          ∧ env2.watchConflict = true))
    ∧ (∀ (env2 : AttemptEnv) (rest2 : List AttemptEnv),
        checkUniques sc env2.uidxSnap pk old new full sc.uniq = none →
        env2.watchConflict = true →
        runNoLua sc pk old new full delete (env2 :: rest2)
          = runNoLua sc pk old new full delete rest2) := by
  refine ⟨?_, ?_, ?_, ?_⟩
  · unfold runNoLua attemptNoLua
    rw [hc]
  · obtain ⟨ival, h1, h2, h3, -, -⟩ := checkUniquesF_some_spec sc env.uidxSnap pk old new full
      sc.uniq c v hc
    exact ⟨ival, h1, h2, h3⟩
  · intro env2
    unfold attemptNoLua
    cases h2 : checkUniques sc env2.uidxSnap pk old new full sc.uniq with
    | some cv =>
      simp only []
      constructor
      · intro hx
        cases hx
      · rintro ⟨hnone, -⟩
        cases hnone
    | none =>
      cases hw : env2.watchConflict <;> simp [hw]
  · intro env2 rest2 h2 hw
    have ha : attemptNoLua sc pk old new full delete env2
        = (.conflictRetry, env2.uidxSnap) := by
      unfold attemptNoLua
      rw [h2]
      simp [hw]
    show (match attemptNoLua sc pk old new full delete env2 with
      | (.conflictRetry, _) => runNoLua sc pk old new full delete rest2
      | r => some r) = runNoLua sc pk old new full delete rest2
    rw [ha]

/-- C9: constructing a fresh (non-loading) entity with a truthy value for
the primary-key column raises `InvalidColumnValue`; loading a persisted row
never trips that check. -/
theorem c9_pkey_on_create (sc : Schema) (kwargs : List (String × PVal))
    (hpk : ∃ ca, (sc.pkey, ca) ∈ sc.columns)
    (ht : ((aget kwargs sc.pkey).getD .pnone).truthyV = true) :
    Model.init sc false kwargs = .error "InvalidColumnValue"
    ∧ ∀ kwargs2, ∃ r, Model.init sc true kwargs2 = .ok r := by
  constructor
  · unfold Model.init
    exact modelInitGo_error sc kwargs ht sc.columns [] hpk
  · intro kwargs2
    unfold Model.init
    exact modelInitGo_ok sc kwargs2 sc.columns []

/-! ### Concrete witnesses -/

/-- Witness for C1: saving entity 1 with email `a@b` while id 7 owns that
unique value aborts with the identified column and value and an unchanged
store. -/
theorem c1_witness :
    ∃ c2 v2 j2, applyChangesLua userSchema conflictStore [("id", "1"), ("email", "x")]
        [("id", "1"), ("email", "a@b")] false false
        = (conflictStore, .uniqueViolation c2 v2)
      ∧ (c2, v2) ∈ (computeDelta userSchema [("id", "1"), ("email", "x")]
          [("id", "1"), ("email", "a@b")] false false).uniqueW
      ∧ aget conflictStore.uidx (c2, v2) = some j2 ∧ j2 ≠ "1" :=
  c1_atomic_unique_abort userSchema conflictStore [("id", "1"), ("email", "x")]
    [("id", "1"), ("email", "a@b")] false false "1" "email" "a@b" "7" rfl (by decide) rfl
    (by decide)

/-- Witness for C2: a successful no-index apply records the empty manifest
4-tuple for the entity, and a delete apply removes row and manifest. -/
theorem c2_witness :
    (false = false → aget (applyChangesLua minSchema minStore [("id", "1")] [("id", "1")]
        false false).1.manifest "1" = some (StoredIdx.m4
      (computeDelta minSchema [("id", "1")] [("id", "1")] false false).keys
      ((computeDelta minSchema [("id", "1")] [("id", "1")] false false).scores.map Prod.fst)
      (computeDelta minSchema [("id", "1")] [("id", "1")] false false).preE
      (computeDelta minSchema [("id", "1")] [("id", "1")] false false).sufE))
    ∧ (false = true →
        aget (applyChangesLua minSchema minStore [("id", "1")] [("id", "1")]
          false false).1.rows "1" = none
        ∧ aget (applyChangesLua minSchema minStore [("id", "1")] [("id", "1")]
          false false).1.manifest "1" = none) :=
  c2_manifest_lifecycle minSchema minStore [("id", "1")] [("id", "1")] false false
    (applyChangesLua minSchema minStore [("id", "1")] [("id", "1")] false false).1
    1 0 [("id", "1")] "1" rfl rfl

/-- Witness for C3 (amended): the no-op save of the persisted minimal
entity has a delta with zero changes and no field, deletion, or
unique-removal entries. -/
theorem c3_witness :
    (computeDelta minSchema minEntity.lastM minEntity.dataM false false).changes = 0
    ∧ (computeDelta minSchema minEntity.lastM minEntity.dataM false false).dataW = []
    ∧ (computeDelta minSchema minEntity.lastM minEntity.dataM false false).deletedW = []
    ∧ (computeDelta minSchema minEntity.lastM minEntity.dataM false false).udeleted = [] := by
  have h := c3_noop_save_amended minSchema minEntity rfl
    (by
      intro ac hac
      have hcols : minSchema.columns = [("id", {})] := rfl
      rw [hcols, List.mem_singleton] at hac
      subst hac
      rfl)
    (by
      intro g hg
      have hcu : minSchema.cuniq = [] := rfl
      rw [hcu] at hg
      cases hg)
  exact ⟨h.1, h.2.1, h.2.2.1, h.2.2.2.1⟩

/-- Witness for C4 (amended): emission conditions evaluated for the
`(x, y)` group on a change of x from 1 to 9. -/
theorem c4_witness :
    ((cuniqueEmit upSchema upRow [("id", "1"), ("x", "9"), ("y", "2")] ["x", "y"]).1 ≠ none ↔
      (["x", "y"].map (aget upRow) ≠ ["x", "y"].map (fun c =>
          (aget [("id", "1"), ("x", "9"), ("y", "2")] c).map (upSchema.colOf c).toRedis)
        ∧ ¬ none ∈ ["x", "y"].map (aget upRow)))
    ∧ ((cuniqueEmit upSchema upRow [("id", "1"), ("x", "9"), ("y", "2")] ["x", "y"]).2 ≠ none ↔
      ¬ none ∈ ["x", "y"].map (fun c =>
          (aget [("id", "1"), ("x", "9"), ("y", "2")] c).map (upSchema.colOf c).toRedis)) :=
  c4_cunique_emission_amended upSchema upRow [("id", "1"), ("x", "9"), ("y", "2")] ["x", "y"]
    (List.mem_singleton.mpr rfl)

/-- Witness for C5: one environment whose snapshot records a foreign owner
for the candidate email stops the loop immediately with the violation and
an uncommitted snapshot. -/
theorem c5_witness :
    runNoLua userSchema "1" [("id", "1"), ("email", "x")] [("id", "1"), ("email", "a@b")]
      false false [⟨[(("email", some "a@b"), "7")], false⟩]
      = some (.violation "email" "a@b", [(("email", some "a@b"), "7")])
    ∧ ∃ ival, aget [(("email", some "a@b"), "7")]
        ("email", (aget [("id", "1"), ("email", "a@b")] "email").map
          (userSchema.colOf "email").toRedis) = some ival ∧ ¬ ival = "" ∧ ¬ ival = "1" := by
  have h := c5_fallback_conflict_no_retry userSchema "1" [("id", "1"), ("email", "x")]
    [("id", "1"), ("email", "a@b")] false false ⟨[(("email", some "a@b"), "7")], false⟩ []
    "email" "a@b" rfl
  exact ⟨h.1, h.2.1⟩

/-- Witness for C6: with y absent on both sides of the `(x, y)` group,
neither an add nor a remove is emitted. -/
theorem c6_witness :
    (cuniqueEmit upSchema [("id", "1")] [("id", "1"), ("x", "1")] ["x", "y"]).2 = none
    ∧ (cuniqueEmit upSchema [("id", "1")] [("id", "1"), ("x", "1")] ["x", "y"]).1 = none := by
  have h := c6_null_exemption upSchema [("id", "1")] [("id", "1"), ("x", "1")] ["x", "y"]
    (List.mem_singleton.mpr rfl)
  exact ⟨h.1 (by decide), h.2 (by decide)⟩

/-- Witness for C8: a delete request for unique entry `(email, a@b)` owned
by id 7 is ignored when id 1 runs the script. -/
theorem c8_witness :
    aget (luaWriterScript conflictStore "U" "1" [] [("email", "a@b")] [] [] [] [] [] []
      false).1.uidx ("email", "a@b") = some "7" :=
  c8_foreign_owner_preserved conflictStore "U" "1" [] [("email", "a@b")] [] [] [] [] [] []
    false ("email", "a@b") "7" rfl (by decide)

/-- Witness for C9: passing id 5 when constructing a fresh minimal entity
raises, while loading with the same arguments succeeds. -/
theorem c9_witness :
    Model.init minSchema false [("id", PVal.pint 5)] = .error "InvalidColumnValue"
    ∧ ∃ r, Model.init minSchema true [("id", PVal.pint 5)] = .ok r := by
  have h := c9_pkey_on_create minSchema [("id", PVal.pint 5)]
    ⟨{}, List.mem_singleton.mpr rfl⟩ rfl
  exact ⟨h.1, h.2 [("id", PVal.pint 5)]⟩

/-- Witness for C10: the id `"abc"` raises before any lookup, and the id
`"5"` behaves exactly like the integer 5. -/
theorem c10_witness :
    Model.getChecked minSchema ⟨[], []⟩ [PyId.pstr "abc"] = .error "ValueError"
    ∧ Model.getChecked minSchema ⟨[], []⟩ (PyId.pstr "5" :: [])
      = Model.getChecked minSchema ⟨[], []⟩ (PyId.pint 5 :: []) := by
  have h := c10_get_int_coercion minSchema ⟨[], []⟩ [PyId.pstr "abc"]
    ⟨PyId.pstr "abc", List.mem_singleton.mpr rfl, rfl⟩
  exact ⟨h.1, h.2 "5" 5 [] rfl⟩

end Rom
